import Mathlib

/-!
# Verification of the link resolution and rewriting core of `mdserver`

This file gives a shallow embedding of the link-checking and link-rewriting
logic of the `mdurlcheck` and `mdrename` tools (`mdurlcheck/main.go`,
`mdrename/main.go`), together with theorems settling the specification claims
about that logic.

The embedding follows the Go source:

* `cleanC`, `joinC`, `dirC`, `relC` embed `path/filepath.Clean`, `Join`,
  `Dir` and `Rel` for the Unix path separator `/` (on which `FromSlash` and
  `ToSlash` are the identity and `VolumeName` is empty).
* `checkFrag` and `processDest` embed the per-destination body of
  `processFile` in `mdurlcheck/main.go` (lines 108–145), including the
  `refMap` fragment cache (`hasRef`/`setRefs`).
* `updateLink`, `updateRenamedFile` and `run` embed the rewriting logic of
  `mdrename/main.go`.

Filesystem reads, `url.Parse`, and the markdown parser are modelled as
oracles supplied to the embedded functions; everything downstream of those
oracles is translated from the source.
-/

/-! ## Paths: `filepath.Clean`, `Join`, `Dir`, `Rel` (Unix separator)

Paths are manipulated as `List Char`; `String` wrappers appear below.
A path is split into components at `/`; `Clean` processes the components
with a stack, dropping empty and `.` components and resolving `..`.
-/

/-- The `..` path component. -/
def dd : List Char := ['.', '.']

/-- Split a character list at every `/`, keeping empty components
    (like splitting `a//b` into `a`, ``, `b`). -/
def splitSlashC : List Char → List (List Char)
  | [] => [[]]
  | c :: cs =>
    if c = '/' then [] :: splitSlashC cs
    else
      match splitSlashC cs with
      | [] => [[c]]
      | h :: t => (c :: h) :: t

/-- Join components with `/` (inverse of `splitSlashC` on slash-free
    components). -/
def joinSlashL : List (List Char) → List Char
  | [] => []
  | [c] => c
  | c :: c2 :: cs => c ++ '/' :: joinSlashL (c2 :: cs)

/-- One step of `filepath.Clean`: process one component against the stack of
    output components (held in reverse).  Empty and `.` components are
    dropped; `..` pops a non-`..` component, is dropped at the root of a
    rooted path, and is kept otherwise. -/
def cleanStep (rooted : Bool) (acc : List (List Char)) (c : List Char) : List (List Char) :=
  if c = [] ∨ c = ['.'] then acc
  else if c = dd then
    match acc with
    | [] => if rooted then [] else [dd]
    | a :: rest => if a = dd then c :: a :: rest else rest
  else c :: acc

/-- The component list produced by `filepath.Clean`. -/
def cleanCore (rooted : Bool) (cs : List (List Char)) : List (List Char) :=
  (cs.foldl (cleanStep rooted) []).reverse

/-- Whether a path is rooted (absolute), i.e. begins with `/`. -/
def isRootedC (p : List Char) : Bool := p.head? = some '/'

/-- Render a cleaned component list back into a path, as `filepath.Clean`
    does: a rooted path gets a leading `/`; an empty relative result is `.`. -/
def printC (rooted : Bool) (cs : List (List Char)) : List Char :=
  if rooted then '/' :: joinSlashL cs
  else if cs = [] then ['.'] else joinSlashL cs

/-- `filepath.Clean` (Unix). -/
def cleanC (p : List Char) : List Char :=
  printC (isRootedC p) (cleanCore (isRootedC p) (splitSlashC p))

/-- `filepath.Join` of two elements (Unix): empty elements are skipped and
    the result is cleaned; `Join("", "")` is `""`. -/
def joinC (a b : List Char) : List Char :=
  if a = [] then (if b = [] then [] else cleanC b)
  else if b = [] then cleanC a
  else cleanC (a ++ '/' :: b)

/-- `filepath.Dir` (Unix): everything up to and including the final `/`,
    cleaned; `.` when the path has no separator. -/
def dirC (p : List Char) : List Char :=
  match (splitSlashC p).dropLast with
  | [] => ['.']
  | c :: cs => cleanC (joinSlashL (c :: cs) ++ ['/'])

/-- Drop the longest common prefix of two component lists, returning the two
    remainders (the element-comparison loop of `filepath.Rel`). -/
def stripCommon : List (List Char) → List (List Char) → List (List Char) × List (List Char)
  | a :: as, b :: bs => if a = b then stripCommon as bs else (a :: as, b :: bs)
  | as, bs => (as, bs)

/-- `filepath.Rel(basepath, targpath)` (Unix): both paths are cleaned; equal
    paths yield `.`; a cleaned base of `.` is treated as empty; rootedness
    must agree; after dropping the common component prefix, a remaining
    leading `..` in the base is an error, and otherwise the result climbs
    with one `..` per remaining base component and descends into the
    remaining target components.  `none` models the error return. -/
def relC (basepath targpath : List Char) : Option (List Char) :=
  let base := cleanC basepath
  let targ := cleanC targpath
  if targ = base then some ['.']
  else
    let base2 := if base = ['.'] then [] else base
    if isRootedC base2 ≠ isRootedC targ then none
    else
      let bc := (splitSlashC base2).filter (fun c => !c.isEmpty)
      let tc := (splitSlashC targ).filter (fun c => !c.isEmpty)
      match stripCommon bc tc with
      | (bs, ts) =>
        if bs.head? = some dd then none
        else some (joinSlashL (List.replicate bs.length dd ++ ts))

/-! String-level wrappers, as used by the Go programs. -/

/-- `filepath.Clean` on strings. -/
def clean (p : String) : String := String.mk (cleanC p.data)

/-- `filepath.Join` on strings. -/
def join (a b : String) : String := String.mk (joinC a.data b.data)

/-- `filepath.Dir` on strings. -/
def dir (p : String) : String := String.mk (dirC p.data)

/-- `filepath.Rel` on strings. -/
def rel (basepath targpath : String) : Option String :=
  (relC basepath.data targpath.data).map String.mk

/-- `filepath.FromSlash`: the identity on Unix (`Separator = '/'`). -/
def fromSlash (s : String) : String := s

/-- `filepath.ToSlash`: the identity on Unix (`Separator = '/'`). -/
def toSlash (s : String) : String := s

/-- `strings.HasSuffix`. -/
def hasSuffix (s suffix : String) : Bool := suffix.data.isSuffixOf s.data

/-! ## The checker (`mdurlcheck/main.go`)

`url.Parse`, `fileExists` (an `os.Stat` whose mode is checked with
`IsRegular`) and `fileRefs` (read and parse a file, returning its heading-id
set) are oracles in a `ChkEnv`; the control flow downstream of them is
translated from `processFile` (lines 108–145) and `refMap`
(lines 189–205). -/

/-- The four fields of Go's `net/url.URL` that the tools inspect. -/
structure GoURL where
  scheme : String
  host : String
  path : String
  fragment : String
deriving DecidableEq

/-- The reasons of the diagnostic lines `<file>: <dst>: <reason>` that the
    spec enumerates.  `unstableSlug` appears in the expected output of
    `main_test.go` but nowhere in `main.go`. -/
inductive Reason
  | emptyUrl
  | malformed
  | broken
  | brokenFrag
  | unstableSlug
deriving DecidableEq

/-- One diagnostic line: containing file, destination, reason. -/
structure Finding where
  file : String
  dst : String
  reason : Reason
deriving DecidableEq

/-- Is a finding in the `BrokenLink` class of the spec's error taxonomy
    (reason `broken link` or `broken link (fragment points to non-existent
    id)`)? -/
def brokenClass (f : Finding) : Bool :=
  f.reason = Reason.broken ∨ f.reason = Reason.brokenFrag

/-- The fragment cache `refMap`: top-level keys are filenames, values are the
    heading-id sets discovered in them.  The Go map is modelled as an
    association list whose lookup returns the most recent entry; `setRefs`
    prepends, which matches the overwrite semantics of map assignment. -/
def RefMap := List (String × List String)

/-- Go map indexing `m[file]` (with the `ok` bool made explicit by `none`). -/
def lookupRef : RefMap → String → Option (List String)
  | [], _ => none
  | (f, rs) :: m, file => if f = file then some rs else lookupRef m file

/-- `refMap.hasRef`: first bool is whether the file is known, second whether
    the ref is known for this file.  A stored empty id set (Go stores the
    `nil` map `extractRefs` returns for a file without heading ids) makes the
    file known. -/
def hasRef (m : RefMap) (file ref : String) : Bool × Bool :=
  match lookupRef m file with
  | none => (false, false)
  | some rs => (true, rs.contains ref)

/-- `refMap.setRefs`. -/
def setRefs (m : RefMap) (file : String) (refs : List String) : RefMap :=
  (file, refs) :: m

/-- The oracles of one checking session. -/
structure ChkEnv where
  /-- `url.Parse`; `none` is a parse error. -/
  parse : String → Option GoURL
  /-- `fileExists`: `os.Stat` succeeds and the mode is a regular file. -/
  fileExists : String → Bool
  /-- `fileRefs`: read the file and extract its heading ids; `none` is a
      read error.  Deterministic within a session. -/
  fileRefs : String → Option (List String)

/-- The mutable state threaded through `processFile`: the per-file
    `hadErrors` flag and the session-wide fragment cache `intrefs`. -/
structure ChkSt where
  hadErrors : Bool
  intrefs : RefMap

/-- Lines 132–143 of `processFile`: consult the fragment cache for
    `(filename, fragment)`, lazily loading `fileRefs filename` on a
    file-level miss.  Returns the final `okr`, the new cache, the number of
    `fileRefs` attempts, and the number of successful loads stored. -/
def checkFrag (env : ChkEnv) (m : RefMap) (file frag : String) :
    Bool × RefMap × Nat × Nat :=
  let (okf, okr) := hasRef m file frag
  if okf then (okr, m, 0, 0)
  else
    match env.fileRefs file with
    | some r => ((r.contains frag), setRefs m file r, 1, 1)
    | none => (okr, m, 1, 0)

/-- The per-destination body of the `processFile` walk (lines 108–145).
    Returns the new state, the diagnostic lines logged for this destination,
    the number of `fileExists` stats, and the `fileRefs` attempt/load counts
    of the fragment-cache consultation. -/
def processDest (env : ChkEnv) (name : String) (idRefs : List String)
    (st : ChkSt) (dst : String) : ChkSt × List Finding × Nat × Nat × Nat :=
  if dst = "" then (st, [⟨name, dst, .emptyUrl⟩], 0, 0, 0)
  else
    match env.parse dst with
    | none => ({ st with hadErrors := true }, [⟨name, dst, .malformed⟩], 0, 0, 0)
    | some u =>
      let (st1, f1) :=
        if u.scheme = "" ∧ u.host = "" ∧ u.path = "" ∧ u.fragment ≠ "" then
          if idRefs.contains u.fragment then (st, ([] : List Finding))
          else ({ st with hadErrors := true }, [⟨name, dst, .broken⟩])
        else (st, [])
      if u.scheme ≠ "" ∨ u.host ≠ "" ∨ u.path = "" then (st1, f1, 0, 0, 0)
      else
        let filename := join (dir name) (fromSlash u.path)
        let (st2, f2) :=
          if env.fileExists filename then (st1, ([] : List Finding))
          else ({ st1 with hadErrors := true }, [⟨name, dst, .broken⟩])
        if u.fragment ≠ "" then
          let (okr, m3, att, lds) := checkFrag env st2.intrefs filename u.fragment
          if okr then ({ st2 with intrefs := m3 }, f1 ++ f2, 1, att, lds)
          else (⟨true, m3⟩, f1 ++ f2 ++ [⟨name, dst, .brokenFrag⟩], 1, att, lds)
        else (st2, f1 ++ f2, 1, 0, 0)

/-- Process the destinations of one document in order, accumulating state and
    diagnostics (the destination loop of `processFile`). -/
def processDests (env : ChkEnv) (name : String) (idRefs : List String) :
    ChkSt → List String → ChkSt × List Finding
  | st, [] => (st, [])
  | st, d :: ds =>
    let (st1, fs, _, _, _) := processDest env name idRefs st d
    let (st2, fs2) := processDests env name idRefs st1 ds
    (st2, fs ++ fs2)

/-- The classification of a parsed destination, as the spec's §3 variant
    rules state them and as the branch conditions of `processFile`
    (lines 118 and 124) realize them.  `other` covers a parsed URL with no
    scheme, no host, empty path and empty fragment, which the code skips like
    an external URL. -/
inductive Classified
  | external
  | localPath
  | fragmentOnly
  | other
deriving DecidableEq

/-- Classification is a pure function of the four URL fields. -/
def classify (u : GoURL) : Classified :=
  if u.scheme ≠ "" ∨ u.host ≠ "" then .external
  else if u.path ≠ "" then .localPath
  else if u.fragment ≠ "" then .fragmentOnly
  else .other

/-! ## The rewriter (`mdrename/main.go`)

The markdown parse of a file is modelled as the list of its link/image
destinations after `url.Parse` (a `none` element is a destination
`url.Parse` rejected, which the walk skips).  Filesystem reads/writes and
the referrer walk are oracles in a `RenameWorld`.  Mutations are recorded as
events so that claims about "no mutation before the error" are statements
about the event list. -/

/-- A filesystem mutation performed by `run`. -/
inductive Mutation
  | mkdirAll (d : String)
  | rename (src dst : String)
  | write (f : String)
deriving DecidableEq

/-- The error results of `run` in `mdrename/main.go`. -/
inductive RenameErr
  /-- "both source and destination must be set" -/
  | bothMustBeSet
  /-- "both source and destination must have '.md' suffix" -/
  | mdSuffix
  /-- "destination %q already exists" -/
  | dstExists
  /-- `os.MkdirAll` failed -/
  | mkdirFailed
  /-- `os.Rename` failed -/
  | renameFailed
  /-- `ioutil.ReadFile` in `updateRenamedFile` failed -/
  | readFailed
  /-- `ioutil.WriteFile` in `updateRenamedFile` failed -/
  | writeFailed
  /-- "had errors processing %d file(s)" -/
  | hadErrors (n : Nat)
  /-- `filepath.Walk` itself failed -/
  | walkFailed
  /-- the final `mdurlcheck .` invocation failed -/
  | checkFailed
deriving DecidableEq

/-- The per-link rewrite of the self-reference pass of `updateRenamedFile`
    (lines 119–141): a link is skipped (`none`) when it is not a local-path
    link; a local-path link is resolved against the directory of the old
    name `src` and re-expressed relative to the directory of the new name
    `dst`, preserving the fragment.  `none` is also returned when
    `filepath.Rel` fails, in which case the walk terminates with `walkErr`
    set (see `selfRewrites`). -/
def updateLink (src dst : String) (u : GoURL) : Option GoURL :=
  if u.scheme ≠ "" ∨ u.host ≠ "" ∨ u.path = "" then none
  else
    let filename := join (dir src) (fromSlash u.path)
    match rel (dir dst) filename with
    | none => none
    | some relPath => some ⟨"", "", toSlash relPath, u.fragment⟩

/-- The walk of `updateRenamedFile` over the parsed links: collect the
    rewritten destinations; a `filepath.Rel` failure sets `walkErr` and
    terminates the walk (`ast.Terminate`), modelled by returning `none` for
    the whole list. -/
def selfRewrites (src dst : String) : List (Option GoURL) → Option (List GoURL)
  | [] => some []
  | none :: rest => selfRewrites src dst rest
  | some u :: rest =>
    if u.scheme ≠ "" ∨ u.host ≠ "" ∨ u.path = "" then selfRewrites src dst rest
    else
      match rel (dir dst) (join (dir src) (fromSlash u.path)) with
      | none => none
      | some _ => (selfRewrites src dst rest).map (fun rs =>
          ⟨"", "", toSlash ((rel (dir dst) (join (dir src) (fromSlash u.path))).getD ""),
           u.fragment⟩ :: rs)

/-- `updateRenamedFile src dst` (lines 107–152): read the moved file, parse
    it, rewrite its local links, and write it back when any replacement was
    collected.  `content` is the read/parse oracle (`none`: `ReadFile`
    failed).  Note the source slip at line 145: on `walkErr != nil` the
    function executes `return err` where `err` is the provably-nil error of
    the earlier `ReadFile`, so a `filepath.Rel` failure is silently dropped
    and the file is left unrewritten; the embedding reproduces this by
    returning no error in that case. -/
def updateRenamedFile (src dst : String) (content : Option (List (Option GoURL)))
    (writeFails : Bool) : Option RenameErr × List Mutation :=
  match content with
  | none => (some .readFailed, [])
  | some links =>
    match selfRewrites src dst links with
    | none => (none, [])
    | some [] => (none, [])
    | some (_ :: _) =>
      if writeFails then (some .writeFailed, [.write dst]) else (none, [.write dst])

/-- The oracles of one `mdrename` run: the `os.Stat` of `dst`, the outcomes
    of `MkdirAll` and `Rename`, the read/parse of the moved file, the
    outcome of its write-back, the per-file outcomes of the referrer pass
    (`true` = `processFile` returned an error for that file; the writes the
    referrer pass itself performs are outside the claims and not recorded),
    whether `filepath.Walk` itself failed, and whether `mdurlcheck` is in
    `PATH` and succeeds. -/
structure RenameWorld where
  dstIsRegular : Bool
  mkdirFails : Bool
  renameFails : Bool
  selfContent : Option (List (Option GoURL))
  selfWriteFails : Bool
  referrers : List Bool
  walkFails : Bool
  mdurlcheck : Option Bool

/-- `run src dst` of `mdrename/main.go` (lines 51–103), returning the error
    result and the mutation events performed, in order. -/
def run (w : RenameWorld) (src dst : String) : Option RenameErr × List Mutation :=
  if src = "" ∨ dst = "" then (some .bothMustBeSet, [])
  else if ¬ (hasSuffix src ".md" ∧ hasSuffix dst ".md") then (some .mdSuffix, [])
  else if src = dst then (none, [])
  else if w.dstIsRegular then (some .dstExists, [])
  else if w.mkdirFails then (some .mkdirFailed, [])
  else
    let m1 := [Mutation.mkdirAll (dir dst)]
    if w.renameFails then (some .renameFailed, m1)
    else
      let m2 := m1 ++ [Mutation.rename src dst]
      match updateRenamedFile src dst w.selfContent w.selfWriteFails with
      | (some e, m3) => (some e, m2 ++ m3)
      | (none, m3) =>
        let m := m2 ++ m3
        if w.walkFails then (some .walkFailed, m)
        else
          let errCnt := w.referrers.countP (fun b => b)
          if errCnt > 0 then (some (.hadErrors errCnt), m)
          else
            match w.mdurlcheck with
            | none => (none, m)
            | some true => (none, m)
            | some false => (some .checkFailed, m)

/-! ## Session load counting (for the Fragment Cache claims)

`sessionLoads env f m reqs` runs a sequence of fragment-cache consultations
(the `(filename, fragment)` pairs reaching lines 132–143 during a session)
and counts how many times the file `f` is successfully read, parsed and
stored. -/

/-- Number of successful `fileRefs f` loads over a sequence of cache
    consultations starting from cache `m`. -/
def sessionLoads (env : ChkEnv) (f : String) : RefMap → List (String × String) → Nat
  | _, [] => 0
  | m, (file, frag) :: reqs =>
    let r := checkFrag env m file frag
    (if file = f then r.2.2.2 else 0) + sessionLoads env f r.2.1 reqs

/-! ## Concrete oracles used by witnesses and counterexamples -/

/-- A session whose only parsable destination is `missing.md#x`, over a
    filesystem with no regular files. -/
def cexEnv : ChkEnv :=
  { parse := fun s => if s = "missing.md#x" then some ⟨"", "", "missing.md", "x"⟩ else none
    fileExists := fun _ => false
    fileRefs := fun _ => none }

/-- A session that parses one external destination. -/
def extEnv : ChkEnv :=
  { parse := fun s => if s = "https://x" then some ⟨"https", "x", "", ""⟩ else none
    fileExists := fun _ => false
    fileRefs := fun _ => none }

/-- The heading ids of `testdata/broken.md` as the expected test output
    documents them: a duplicated `Subheading` heading yields the slugs
    `duplicate-subheading` and `duplicate-subheading-1`; neither `bam` nor
    `boom` is defined. -/
def brokenIds : List String := ["duplicate-subheading", "duplicate-subheading-1"]

/-- The checked file of the `TestMain` scenario. -/
def brokenName : String := "../testdata/broken.md"

/-- The destinations of `testdata/broken.md`, in the order of the expected
    test output. -/
def brokenDsts : List String :=
  ["#duplicate-subheading-1", "../testdata", "non-existent.md", "#bam", "broken.md#boom"]

/-- The oracles of the `TestMain` scenario: `../testdata` is a directory
    (not a regular file), `../testdata/broken.md` is the only regular file
    and parses to `brokenIds`, and `non-existent.md` does not exist. -/
def brokenEnv : ChkEnv :=
  { parse := fun s =>
      if s = "#duplicate-subheading-1" then some ⟨"", "", "", "duplicate-subheading-1"⟩
      else if s = "../testdata" then some ⟨"", "", "../testdata", ""⟩
      else if s = "non-existent.md" then some ⟨"", "", "non-existent.md", ""⟩
      else if s = "#bam" then some ⟨"", "", "", "bam"⟩
      else if s = "broken.md#boom" then some ⟨"", "", "broken.md", "boom"⟩
      else none
    fileExists := fun p => p = brokenName
    fileRefs := fun p => if p = brokenName then some brokenIds else none }

/-- A rename of `a.md` to `../a.md` where `a.md` contains the local link
    `b.md`: `filepath.Rel("..", "b.md")` fails, because after stripping the
    common prefix the base remainder starts with `..`. -/
def relFailWorld : RenameWorld :=
  { dstIsRegular := false, mkdirFails := false, renameFails := false,
    selfContent := some [some ⟨"", "", "b.md", ""⟩], selfWriteFails := false,
    referrers := [], walkFails := false, mdurlcheck := none }

/-- A world where the destination of the rename already exists as a regular
    file. -/
def dstTakenWorld : RenameWorld :=
  { dstIsRegular := true, mkdirFails := false, renameFails := false,
    selfContent := none, selfWriteFails := false,
    referrers := [], walkFails := false, mdurlcheck := none }

/-! ## Predicates of the path-algebra development -/

/-- A well-formed path component: non-empty, not `.`, slash-free. -/
def compOK (c : List Char) : Prop := c ≠ [] ∧ c ≠ ['.'] ∧ '/' ∉ c

/-- `..` components appear only as a leading run. -/
def ddOnlyLeading : List (List Char) → Prop
  | [] => True
  | c :: cs => (c ≠ dd → dd ∉ cs) ∧ ddOnlyLeading cs

/-- `..` components appear only as a trailing run (the stack-side mirror of
    `ddOnlyLeading`). -/
def ddSuffix : List (List Char) → Prop
  | [] => True
  | c :: cs => (c = dd → ∀ x ∈ cs, x = dd) ∧ ddSuffix cs

/-- The invariant of the `cleanStep` stack: well-formed components, `..`
    only at the bottom, and none at all for a rooted path. -/
def stackOK (rooted : Bool) (acc : List (List Char)) : Prop :=
  (∀ c ∈ acc, compOK c) ∧ ddSuffix acc ∧ (rooted = true → dd ∉ acc)


/-- Inversion of the classifier at `localPath`. -/
theorem classify_localPath_iff (u : GoURL) :
    classify u = .localPath ↔ u.scheme = "" ∧ u.host = "" ∧ u.path ≠ "" := by
  unfold classify
  by_cases h1 : u.scheme ≠ "" ∨ u.host ≠ ""
  · simp only [if_pos h1]
    constructor
    · intro h; cases h
    · rintro ⟨hs, hh, -⟩; exact absurd h1 (by simp [hs, hh])
  · push_neg at h1
    obtain ⟨hs, hh⟩ := h1
    have hx : ¬ (u.scheme ≠ "" ∨ u.host ≠ "") := by simp [hs, hh]
    rw [if_neg hx]
    by_cases h2 : u.path ≠ ""
    · simp [h2, hs, hh]
    · have h2n : ¬ (u.path ≠ "") := h2
      rw [if_neg h2n]
      constructor
      · intro h; split at h <;> cases h
      · rintro ⟨-, -, hp⟩; exact absurd hp h2

/-- Inversion of the classifier at `fragmentOnly`. -/
theorem classify_fragmentOnly_iff (u : GoURL) :
    classify u = .fragmentOnly ↔
      u.scheme = "" ∧ u.host = "" ∧ u.path = "" ∧ u.fragment ≠ "" := by
  unfold classify
  by_cases h1 : u.scheme ≠ "" ∨ u.host ≠ ""
  · simp only [if_pos h1]
    constructor
    · intro h; cases h
    · rintro ⟨hs, hh, -⟩; exact absurd h1 (by simp [hs, hh])
  · push_neg at h1
    obtain ⟨hs, hh⟩ := h1
    have hx : ¬ (u.scheme ≠ "" ∨ u.host ≠ "") := by simp [hs, hh]
    rw [if_neg hx]
    by_cases h2 : u.path ≠ ""
    · simp only [if_pos h2]
      constructor
      · intro h; cases h
      · rintro ⟨-, -, hp, -⟩; exact absurd hp h2
    · have h2n : ¬ (u.path ≠ "") := h2
      rw [if_neg h2n]
      push_neg at h2
      by_cases h3 : u.fragment ≠ ""
      · simp [h3, hs, hh, h2]
      · have h3n : ¬ (u.fragment ≠ "") := h3
        rw [if_neg h3n]
        push_neg at h3
        constructor
        · intro h; cases h
        · rintro ⟨-, -, -, hf⟩; exact absurd h3 hf

/-- C1: a destination whose parsed URL has a non-empty scheme or host is
    classified External; the checker reports no finding for it, performs no
    filesystem existence check and no fragment-cache consultation, and
    leaves the state (dirty flag and fragment cache) unchanged. -/
theorem external_never_checked (env : ChkEnv) (name : String) (idRefs : List String)
    (st : ChkSt) (dst : String) (u : GoURL)
    (hd : dst ≠ "") (hp : env.parse dst = some u)
    (hx : u.scheme ≠ "" ∨ u.host ≠ "") :
    classify u = .external ∧
    processDest env name idRefs st dst = (st, [], 0, 0, 0) := by
  have hfrag : ¬ (u.scheme = "" ∧ u.host = "" ∧ u.path = "" ∧ u.fragment ≠ "") := by
    rintro ⟨hs, hh, -, -⟩
    rcases hx with h | h <;> simp_all
  refine ⟨by unfold classify; rw [if_pos hx], ?_⟩
  unfold processDest
  rw [if_neg hd, hp]
  simp only [if_neg hfrag]
  rw [if_pos (show u.scheme ≠ "" ∨ u.host ≠ "" ∨ u.path = "" by
    rcases hx with h | h
    · exact Or.inl h
    · exact Or.inr (Or.inl h))]

/-- Witness for `external_never_checked` at `https://x` in `extEnv`. -/
theorem external_never_checked_witness :
    classify ⟨"https", "x", "", ""⟩ = .external ∧
    processDest extEnv "f.md" [] ⟨false, []⟩ "https://x" = (⟨false, []⟩, [], 0, 0, 0) :=
  external_never_checked extEnv "f.md" [] ⟨false, []⟩ "https://x" ⟨"https", "x", "", ""⟩
    (by decide) (by decide) (by decide)

/-- C8: an empty destination produces the `empty url` advisory line only:
    the dirty flag and the fragment cache are unchanged and no filesystem or
    cache access happens. -/
theorem empty_destination_advisory_only (env : ChkEnv) (name : String)
    (idRefs : List String) (st : ChkSt) :
    processDest env name idRefs st "" = (st, [⟨name, "", .emptyUrl⟩], 0, 0, 0) := by
  rfl

/-- C4: a FragmentOnly destination is tested against the current document's
    own heading-id set: a present id yields no finding and no state change;
    an absent id yields exactly one `broken link` finding and marks the run
    dirty.  No filesystem or fragment-cache access happens either way. -/
theorem fragmentOnly_checked_against_own_ids (env : ChkEnv) (name : String)
    (idRefs : List String) (st : ChkSt) (dst : String) (u : GoURL)
    (hd : dst ≠ "") (hp : env.parse dst = some u)
    (hc : classify u = .fragmentOnly) :
    processDest env name idRefs st dst =
      (if idRefs.contains u.fragment then (st, [], 0, 0, 0)
       else ({ st with hadErrors := true }, [⟨name, dst, .broken⟩], 0, 0, 0)) := by
  obtain ⟨hs, hh, hpath, hf⟩ := (classify_fragmentOnly_iff u).mp hc
  unfold processDest
  rw [if_neg hd, hp]
  by_cases hmem : u.fragment ∈ idRefs
  · simp [hs, hh, hpath, hf, hmem]
  · simp [hs, hh, hpath, hf, hmem]

/-- Witness for `fragmentOnly_checked_against_own_ids` at `#bam` in the
    `TestMain` scenario. -/
theorem fragmentOnly_checked_witness :
    processDest brokenEnv brokenName brokenIds ⟨false, []⟩ "#bam" =
      (if brokenIds.contains "bam" then (⟨false, []⟩, [], 0, 0, 0)
       else ({ hadErrors := true, intrefs := [] }, [⟨brokenName, "#bam", .broken⟩], 0, 0, 0)) :=
  fragmentOnly_checked_against_own_ids brokenEnv brokenName brokenIds ⟨false, []⟩
    "#bam" ⟨"", "", "", "bam"⟩ (by decide) (by decide) (by decide)

/-- Counterexample to C3 as stated: for the LocalPath destination
    `missing.md#x` whose resolved path does not exist, the checker reports
    TWO findings of the spec's `BrokenLink` class (`broken link` and
    `broken link (fragment points to non-existent id)`), not exactly one. -/
theorem localPath_missing_counterexample :
    classify ⟨"", "", "missing.md", "x"⟩ = .localPath ∧
    cexEnv.fileExists (join (dir "doc.md") (fromSlash "missing.md")) = false ∧
    (processDest cexEnv "doc.md" [] ⟨false, []⟩ "missing.md#x").2.1.countP brokenClass = 2 ∧
    ¬ ((processDest cexEnv "doc.md" [] ⟨false, []⟩ "missing.md#x").2.1.countP brokenClass = 1) := by
  decide

/-- C3 (amended): a LocalPath destination whose resolved path is not an
    existing regular file yields exactly one finding with reason
    `broken link` and marks the run dirty (a destination that also carries a
    fragment may additionally yield one `broken link (fragment points to
    non-existent id)` finding). -/
theorem localPath_missing_one_broken_finding (env : ChkEnv) (name : String)
    (idRefs : List String) (st : ChkSt) (dst : String) (u : GoURL)
    (hd : dst ≠ "") (hp : env.parse dst = some u)
    (hc : classify u = .localPath)
    (hm : env.fileExists (join (dir name) (fromSlash u.path)) = false) :
    (processDest env name idRefs st dst).2.1.countP (fun f => f.reason = Reason.broken) = 1 ∧
    (processDest env name idRefs st dst).1.hadErrors = true := by
  obtain ⟨hs, hh, hpath⟩ := (classify_localPath_iff u).mp hc
  unfold processDest
  rw [if_neg hd, hp]
  by_cases hfr : u.fragment = ""
  · simp [hs, hh, hpath, hm, hfr]
  · simp [hs, hh, hpath, hm, hfr]
    rcases hck : checkFrag env st.intrefs (join (dir name) (fromSlash u.path)) u.fragment
      with ⟨okr, m3, att, lds⟩
    cases okr <;>
      simp [hck, List.countP_cons, List.countP_nil]

/-- Witness for `localPath_missing_one_broken_finding` at `missing.md#x` in
    `cexEnv`. -/
theorem localPath_missing_witness :
    (processDest cexEnv "doc.md" [] ⟨false, []⟩ "missing.md#x").2.1.countP
      (fun f => f.reason = Reason.broken) = 1 ∧
    (processDest cexEnv "doc.md" [] ⟨false, []⟩ "missing.md#x").1.hadErrors = true :=
  localPath_missing_one_broken_finding cexEnv "doc.md" [] ⟨false, []⟩ "missing.md#x"
    ⟨"", "", "missing.md", "x"⟩ (by decide) (by decide) (by decide) (by decide)

/-- `setRefs` does not disturb the entry of a different file. -/
theorem lookupRef_setRefs_ne (m : RefMap) (file f : String) (rs : List String)
    (h : file ≠ f) : lookupRef (setRefs m file rs) f = lookupRef m f := by
  simp [setRefs, lookupRef, h]

/-- `setRefs` stores the entry of the file it sets. -/
theorem lookupRef_setRefs_self (m : RefMap) (file : String) (rs : List String) :
    lookupRef (setRefs m file rs) file = some rs := by
  simp [setRefs, lookupRef]

/-- A consultation sequence performs no load of a file already stored in the
    cache. -/
theorem sessionLoads_of_stored (env : ChkEnv) (f : String) :
    ∀ (reqs : List (String × String)) (m : RefMap) (rs : List String),
      lookupRef m f = some rs → sessionLoads env f m reqs = 0 := by
  intro reqs
  induction reqs with
  | nil => intro m rs _; rfl
  | cons req reqs ih =>
    intro m rs hm
    rcases req with ⟨file, frag⟩
    by_cases hf : file = f
    · subst hf
      simp [sessionLoads, checkFrag, hasRef, hm]
      exact ih m rs hm
    · simp only [sessionLoads, if_neg hf, Nat.zero_add]
      rcases hlk : lookupRef m file with _ | rs2
      · rcases hfr : env.fileRefs file with _ | r
        · simp [checkFrag, hasRef, hlk, hfr]
          exact ih m rs hm
        · simp [checkFrag, hasRef, hlk, hfr]
          exact ih (setRefs m file r) rs (by rw [lookupRef_setRefs_ne m file f r hf]; exact hm)
      · simp [checkFrag, hasRef, hlk]
        exact ih m rs hm

/-- A consultation sequence loads any given file at most once. -/
theorem sessionLoads_le_one (env : ChkEnv) (f : String) :
    ∀ (reqs : List (String × String)) (m : RefMap), sessionLoads env f m reqs ≤ 1 := by
  intro reqs
  induction reqs with
  | nil => intro m; exact Nat.zero_le 1
  | cons req reqs ih =>
    intro m
    rcases req with ⟨file, frag⟩
    by_cases hf : file = f
    · subst hf
      rcases hlk : lookupRef m file with _ | rs
      · rcases hfr : env.fileRefs file with _ | r
        · simp [sessionLoads, checkFrag, hasRef, hlk, hfr]
          exact ih m
        · simp [sessionLoads, checkFrag, hasRef, hlk, hfr]
          rw [sessionLoads_of_stored env file reqs (setRefs m file r) r
            (lookupRef_setRefs_self m file r)]
      · simp [sessionLoads, checkFrag, hasRef, hlk]
        exact ih m
    · rcases hlk : lookupRef m file with _ | rs
      · rcases hfr : env.fileRefs file with _ | r
        · simp [sessionLoads, checkFrag, hasRef, hlk, hfr, hf]
          exact ih m
        · simp [sessionLoads, checkFrag, hasRef, hlk, hfr, hf]
          exact ih (setRefs m file r)
      · simp [sessionLoads, checkFrag, hasRef, hlk, hf]
        exact ih m

/-- C2: fragment-cache idempotence.  Consulting the cache twice for the same
    `(file, fragment)` pair yields the same answer and the same cache, and
    performs at most one successful load in total; a consultation after a
    store performs no `fileRefs` attempt at all; a stored empty id set makes
    the file known; and any consultation sequence loads each distinct file
    path at most once. -/
theorem fragment_cache_idempotent (env : ChkEnv) (m : RefMap) (file frag f : String)
    (refs : List String) (reqs : List (String × String)) :
    (checkFrag env (checkFrag env m file frag).2.1 file frag).1 = (checkFrag env m file frag).1 ∧
    (checkFrag env (checkFrag env m file frag).2.1 file frag).2.1 = (checkFrag env m file frag).2.1 ∧
    (checkFrag env m file frag).2.2.2 + (checkFrag env (checkFrag env m file frag).2.1 file frag).2.2.2 ≤ 1 ∧
    (checkFrag env (setRefs m file refs) file frag).2.2.1 = 0 ∧
    (hasRef (setRefs m file []) file frag).1 = true ∧
    sessionLoads env f m reqs ≤ 1 := by
  refine ⟨?_, ?_, ?_, ?_, ?_, sessionLoads_le_one env f reqs m⟩ <;>
  · rcases hlk : lookupRef m file with _ | rs
    · rcases hfr : env.fileRefs file with _ | r
      · simp [checkFrag, hasRef, setRefs, lookupRef, hlk, hfr]
      · simp [checkFrag, hasRef, setRefs, lookupRef, hlk, hfr]
    · simp [checkFrag, hasRef, setRefs, lookupRef, hlk]

/-- C6: when the rename destination already names an existing regular file,
    `run` fails with the destination-exists error before any filesystem
    mutation: no directory creation, no rename, no write. -/
theorem dst_exists_fatal_before_mutation (w : RenameWorld) (src dst : String)
    (hs : hasSuffix src ".md" = true) (hd : hasSuffix dst ".md" = true)
    (hne : src ≠ dst) (hex : w.dstIsRegular = true) :
    run w src dst = (some .dstExists, []) := by
  have hs0 : src ≠ "" := by rintro rfl; exact absurd hs (by decide)
  have hd0 : dst ≠ "" := by rintro rfl; exact absurd hd (by decide)
  simp [run, hs0, hd0, hs, hd, hne, hex]

/-- Witness for `dst_exists_fatal_before_mutation`. -/
theorem dst_exists_fatal_witness :
    run dstTakenWorld "a.md" "b.md" = (some .dstExists, []) :=
  dst_exists_fatal_before_mutation dstTakenWorld "a.md" "b.md"
    (by decide) (by decide) (by decide) (by decide)

/-- C10: when `src = dst` (both with the `.md` suffix), `run` returns
    success immediately and performs no filesystem mutation. -/
theorem run_src_eq_dst_noop (w : RenameWorld) (src dst : String)
    (hs : hasSuffix src ".md" = true) (heq : src = dst) :
    run w src dst = (none, []) := by
  subst heq
  have hs0 : src ≠ "" := by rintro rfl; exact absurd hs (by decide)
  simp [run, hs0, hs]

/-- Witness for `run_src_eq_dst_noop`. -/
theorem run_src_eq_dst_noop_witness :
    run dstTakenWorld "a.md" "a.md" = (none, []) :=
  run_src_eq_dst_noop dstTakenWorld "a.md" "a.md" (by decide) rfl

/-- C7: the slip at `mdrename/main.go:145`.  Renaming `a.md` to `../a.md`
    when `a.md` contains the local link `b.md` makes `filepath.Rel` fail in
    the self-reference pass, but `updateRenamedFile` returns the stale nil
    `err` instead of `walkErr`, so `run` succeeds (after the `MkdirAll` and
    `Rename` mutations) with the moved file left unrewritten, where the spec
    says the self-reference-update error is fatal for the whole run. -/
theorem self_update_rel_error_swallowed :
    rel (dir "../a.md") (join (dir "a.md") (fromSlash "b.md")) = none ∧
    updateRenamedFile "a.md" "../a.md" relFailWorld.selfContent relFailWorld.selfWriteFails
      = (none, []) ∧
    run relFailWorld "a.md" "../a.md" =
      (none, [.mkdirAll "..", .rename "a.md" "../a.md"]) := by
  decide

/-- C9: in the `TestMain` scenario (`../testdata/broken.md` with the five
    destinations of the expected output), the checker emits exactly the four
    `BrokenLink`-class findings and marks the run dirty, but emits NO
    `unstable slug reference` advisory for `#duplicate-subheading-1`, whose
    id is present in the document and therefore produces no line at all —
    contradicting the first line `main_test.go` expects. -/
theorem broken_scenario_no_slug_advisory :
    (processDests brokenEnv brokenName brokenIds ⟨false, []⟩ brokenDsts).2 =
      [⟨brokenName, "../testdata", .broken⟩,
       ⟨brokenName, "non-existent.md", .broken⟩,
       ⟨brokenName, "#bam", .broken⟩,
       ⟨brokenName, "broken.md#boom", .brokenFrag⟩] ∧
    (processDests brokenEnv brokenName brokenIds ⟨false, []⟩ brokenDsts).1.hadErrors = true ∧
    (processDests brokenEnv brokenName brokenIds ⟨false, []⟩ brokenDsts).2.countP brokenClass = 4 ∧
    ∀ f ∈ (processDests brokenEnv brokenName brokenIds ⟨false, []⟩ brokenDsts).2,
      f.reason ≠ Reason.unstableSlug := by
  decide

/-! ## Path algebra: `Join ∘ Rel` round-trip (for the Rewriter claims) -/

theorem splitSlashC_cons_slash (b : List Char) :
    splitSlashC ('/' :: b) = [] :: splitSlashC b := rfl

theorem splitSlashC_cons_ne (c : Char) (b h1 : List Char) (t : List (List Char))
    (hc : c ≠ '/') (hs : splitSlashC b = h1 :: t) :
    splitSlashC (c :: b) = (c :: h1) :: t := by
  show (if c = '/' then [] :: splitSlashC b
        else
          match splitSlashC b with
          | [] => [[c]]
          | h :: t => (c :: h) :: t) = (c :: h1) :: t
  rw [if_neg hc, hs]

theorem splitSlashC_ne_nil : ∀ l : List Char, splitSlashC l ≠ []
  | [] => by simp [splitSlashC]
  | c :: cs => by
    by_cases h : c = '/'
    · subst h; rw [splitSlashC_cons_slash]; simp
    · rcases hs : splitSlashC cs with _ | ⟨h1, t⟩
      · exact absurd hs (splitSlashC_ne_nil cs)
      · rw [splitSlashC_cons_ne c cs h1 t h hs]; simp

theorem splitSlashC_append : ∀ a b : List Char,
    splitSlashC (a ++ '/' :: b) = splitSlashC a ++ splitSlashC b
  | [], _ => rfl
  | c :: a, b => by
    by_cases h : c = '/'
    · subst h
      show splitSlashC ('/' :: (a ++ '/' :: b)) = splitSlashC ('/' :: a) ++ splitSlashC b
      rw [splitSlashC_cons_slash, splitSlashC_cons_slash, splitSlashC_append a b]
      rfl
    · rcases hs : splitSlashC a with _ | ⟨h1, t⟩
      · exact absurd hs (splitSlashC_ne_nil a)
      · show splitSlashC (c :: (a ++ '/' :: b)) = splitSlashC (c :: a) ++ splitSlashC b
        rw [splitSlashC_cons_ne c a h1 t h hs]
        rw [splitSlashC_cons_ne c (a ++ '/' :: b) h1 (t ++ splitSlashC b) h
          (by rw [splitSlashC_append a b, hs]; rfl)]
        rfl

theorem splitSlashC_slash_free : ∀ (p : List Char), ∀ c ∈ splitSlashC p, '/' ∉ c
  | [], c, hc => by
    simp [splitSlashC] at hc
    simp [hc]
  | x :: p, c, hc => by
    by_cases h : x = '/'
    · subst h
      rw [splitSlashC_cons_slash] at hc
      rcases List.mem_cons.mp hc with hc | hc
      · simp [hc]
      · exact splitSlashC_slash_free p c hc
    · rcases hs : splitSlashC p with _ | ⟨h1, t⟩
      · exact absurd hs (splitSlashC_ne_nil p)
      · rw [splitSlashC_cons_ne x p h1 t h hs] at hc
        rcases List.mem_cons.mp hc with hc | hc
        · subst hc
          intro hmem
          rcases List.mem_cons.mp hmem with hmem | hmem
          · exact h hmem.symm
          · exact splitSlashC_slash_free p h1 (hs ▸ List.mem_cons_self h1 t) hmem
        · exact splitSlashC_slash_free p c (hs ▸ List.mem_cons_of_mem h1 hc)

theorem splitSlashC_of_slash_free : ∀ c : List Char, '/' ∉ c → splitSlashC c = [c]
  | [], _ => rfl
  | x :: c, h => by
    have hx : x ≠ '/' := by rintro rfl; exact h (List.mem_cons_self _ _)
    exact splitSlashC_cons_ne x c c [] hx
      (splitSlashC_of_slash_free c (fun hc => h (List.mem_cons_of_mem x hc)))

theorem splitSlashC_joinSlashL : ∀ cs : List (List Char),
    (∀ c ∈ cs, '/' ∉ c) → cs ≠ [] → splitSlashC (joinSlashL cs) = cs
  | [], _, h => absurd rfl h
  | [c], h, _ => by
    rw [joinSlashL, splitSlashC_of_slash_free c (h c (List.mem_cons_self _ _))]
  | c :: c2 :: cs, h, _ => by
    rw [joinSlashL, splitSlashC_append, splitSlashC_of_slash_free c (h c (List.mem_cons_self _ _))]
    rw [splitSlashC_joinSlashL (c2 :: cs) (fun x hx => h x (List.mem_cons_of_mem c hx)) (by simp)]
    rfl

theorem ddOnlyLeading_suffix : ∀ p q : List (List Char),
    ddOnlyLeading (p ++ q) → ddOnlyLeading q
  | [], _, h => h
  | _ :: p, q, h => ddOnlyLeading_suffix p q h.2

theorem ddOnlyLeading_not_mem (l : List (List Char))
    (h : ddOnlyLeading l) (hh : l.head? ≠ some dd) : dd ∉ l := by
  cases l with
  | nil => simp
  | cons c cs =>
    have hc : c ≠ dd := by rintro rfl; exact hh rfl
    intro hmem
    rcases List.mem_cons.mp hmem with hmem | hmem
    · exact hc hmem.symm
    · exact h.1 hc hmem

theorem ddOnlyLeading_mid (a : List Char) : ∀ w ts : List (List Char),
    ddOnlyLeading (w ++ a :: dd :: ts) → a = dd := by
  intro w ts h
  have h2 := ddOnlyLeading_suffix w (a :: dd :: ts) h
  by_contra hne
  exact h2.1 hne (List.mem_cons_self dd ts)

theorem ddSuffix_snoc_reverse : ∀ acc : List (List Char),
    ddSuffix acc → ddOnlyLeading acc.reverse := by
  have key : ∀ (l : List (List Char)) (c : List Char),
      ddOnlyLeading l → (c = dd → ∀ x ∈ l, x = dd) → ddOnlyLeading (l ++ [c]) := by
    intro l
    induction l with
    | nil =>
      intro c _ _
      exact ⟨by simp, trivial⟩
    | cons a l ih =>
      intro c hl hc
      refine ⟨?_, ih c hl.2 (fun h x hx => hc h x (List.mem_cons_of_mem a hx))⟩
      intro ha hmem
      rcases List.mem_append.mp hmem with hmem | hmem
      · exact hl.1 ha hmem
      · have hcd : c = dd := (List.mem_singleton.mp hmem).symm
        exact ha (hc hcd a (List.mem_cons_self a l))
  intro acc
  induction acc with
  | nil => intro _; trivial
  | cons c cs ih =>
    intro h
    rw [List.reverse_cons]
    exact key cs.reverse c (ih h.2)
      (fun hc x hx => h.1 hc x (List.mem_reverse.mp hx))

theorem cleanStep_stackOK (rooted : Bool) (acc : List (List Char)) (c : List Char)
    (h : stackOK rooted acc) (hc : '/' ∉ c) : stackOK rooted (cleanStep rooted acc c) := by
  obtain ⟨hcomp, hsuf, hdd⟩ := h
  unfold cleanStep
  by_cases h1 : c = [] ∨ c = ['.']
  · rw [if_pos h1]; exact ⟨hcomp, hsuf, hdd⟩
  · rw [if_neg h1]
    push_neg at h1
    obtain ⟨hne, hnd⟩ := h1
    by_cases h2 : c = dd
    · rw [if_pos h2]
      cases acc with
      | nil =>
        cases rooted
        · refine ⟨?_, ⟨by simp, trivial⟩, by simp⟩
          intro x hx
          rcases List.mem_singleton.mp hx with rfl
          exact ⟨by simp [dd], by simp [dd], by simp [dd]⟩
        · exact ⟨by simp, trivial, fun _ => by simp⟩
      | cons a rest =>
        show stackOK rooted (if a = dd then c :: a :: rest else rest)
        by_cases h3 : a = dd
        · rw [if_pos h3]
          subst h3
          have hall : ∀ x ∈ rest, x = dd := hsuf.1 rfl
          subst h2
          refine ⟨?_, ?_, ?_⟩
          · intro x hx
            rcases List.mem_cons.mp hx with rfl | hx
            · exact ⟨by simp [dd], by simp [dd], by simp [dd]⟩
            · exact hcomp x hx
          · exact ⟨fun _ x hx => by
              rcases List.mem_cons.mp hx with rfl | hx
              · rfl
              · exact hall x hx, hsuf⟩
          · intro hr hx
            exact hdd hr (List.mem_cons_self dd rest)
        · rw [if_neg h3]
          exact ⟨fun x hx => hcomp x (List.mem_cons_of_mem a hx), hsuf.2,
            fun hr hx => hdd hr (List.mem_cons_of_mem a hx)⟩
    · rw [if_neg h2]
      refine ⟨?_, ⟨fun hcd => absurd hcd h2, hsuf⟩, ?_⟩
      · intro x hx
        rcases List.mem_cons.mp hx with rfl | hx
        · exact ⟨hne, hnd, hc⟩
        · exact hcomp x hx
      · intro hr hx
        rcases List.mem_cons.mp hx with hx | hx
        · exact h2 hx.symm
        · exact hdd hr hx

theorem foldl_cleanStep_stackOK (rooted : Bool) :
    ∀ (cs : List (List Char)) (acc : List (List Char)),
      (∀ c ∈ cs, '/' ∉ c) → stackOK rooted acc →
      stackOK rooted (cs.foldl (cleanStep rooted) acc)
  | [], acc, _, h => h
  | c :: cs, acc, hc, h => by
    rw [List.foldl_cons]
    exact foldl_cleanStep_stackOK rooted cs (cleanStep rooted acc c)
      (fun x hx => hc x (List.mem_cons_of_mem c hx))
      (cleanStep_stackOK rooted acc c h (hc c (List.mem_cons_self c cs)))

/-- The output of `cleanCore` is in clean form: well-formed components,
    `..` only leading, and no `..` at all in a rooted path. -/
theorem cleanCore_cleanForm (rooted : Bool) (cs : List (List Char))
    (hc : ∀ c ∈ cs, '/' ∉ c) :
    (∀ c ∈ cleanCore rooted cs, compOK c) ∧ ddOnlyLeading (cleanCore rooted cs) ∧
      (rooted = true → dd ∉ cleanCore rooted cs) := by
  have h := foldl_cleanStep_stackOK rooted cs [] hc ⟨by simp, trivial, fun _ => by simp⟩
  obtain ⟨hcomp, hsuf, hdd⟩ := h
  unfold cleanCore
  exact ⟨fun c hx => hcomp c (List.mem_reverse.mp hx),
    ddSuffix_snoc_reverse _ hsuf,
    fun hr hx => hdd hr (List.mem_reverse.mp hx)⟩

/-- Processing an already-clean component list from a matching stack is the
    identity (modulo the stack representation). -/
theorem foldl_cleanStep_cleanForm (rooted : Bool) :
    ∀ (ts p : List (List Char)),
      (∀ c ∈ p ++ ts, compOK c) → ddOnlyLeading (p ++ ts) →
      (rooted = true → dd ∉ p ++ ts) →
      ts.foldl (cleanStep rooted) p.reverse = (p ++ ts).reverse
  | [], p, _, _, _ => by simp
  | t :: ts, p, hcomp, hlead, hdd => by
    have htc : compOK t := hcomp t (by simp)
    have hstep : cleanStep rooted p.reverse t = (p ++ [t]).reverse := by
      unfold cleanStep
      rw [if_neg (by rintro (h | h) <;> [exact htc.1 h; exact htc.2.1 h])]
      by_cases h2 : t = dd
      · have hrooted : rooted = false := by
          cases hr : rooted
          · rfl
          · exfalso
            apply hdd hr
            subst h2
            exact List.mem_append_right p (List.mem_cons_self dd ts)
        rw [if_pos h2]
        rcases hrev : p.reverse with _ | ⟨a, w⟩
        · have hp : p = [] := by
            have := congrArg List.reverse hrev
            simpa using this
          subst hp
          simp [hrooted, h2]
        · have hp : p = w.reverse ++ [a] := by
            have := congrArg List.reverse hrev
            simpa using this
          have ha : a = dd := by
            apply ddOnlyLeading_mid a w.reverse ts
            rw [hp] at hlead
            rw [h2] at hlead
            simpa using hlead
          show (if a = dd then t :: a :: w else w) = (p ++ [t]).reverse
          rw [if_pos ha, hp]
          simp [h2]
      · rw [if_neg h2]
        simp
    rw [List.foldl_cons, hstep]
    have := foldl_cleanStep_cleanForm rooted ts (p ++ [t])
      (by simpa using hcomp) (by simpa using hlead) (by simpa using hdd)
    rw [this]
    simp

/-- A run of `..` components pops a matching run of plain components off the
    stack. -/
theorem foldl_cleanStep_pops (rooted : Bool) :
    ∀ (zs w : List (List Char)),
      (∀ z ∈ zs, z ≠ [] ∧ z ≠ ['.'] ∧ z ≠ dd) →
      List.foldl (cleanStep rooted) (zs ++ w) (List.replicate zs.length dd) = w
  | [], w, _ => by simp
  | z :: zs, w, hz => by
    have hzc := hz z (by simp)
    rw [List.length_cons, List.replicate_succ, List.foldl_cons]
    have hstep : cleanStep rooted ((z :: zs) ++ w) dd = zs ++ w := by
      unfold cleanStep
      rw [if_neg (by rintro (h | h) <;> simp [dd] at h)]
      rw [if_pos rfl]
      show (if z = dd then dd :: z :: (zs ++ w) else zs ++ w) = zs ++ w
      rw [if_neg hzc.2.2]
    rw [hstep]
    exact foldl_cleanStep_pops rooted zs w (fun x hx => hz x (List.mem_cons_of_mem z hx))

/-- `stripCommon` removes a common prefix. -/
theorem stripCommon_spec : ∀ a b : List (List Char),
    ∃ p, a = p ++ (stripCommon a b).1 ∧ b = p ++ (stripCommon a b).2
  | [], b => ⟨[], by simp [stripCommon]⟩
  | a :: as, [] => ⟨[], by simp [stripCommon]⟩
  | a :: as, b :: bs => by
    unfold stripCommon
    by_cases h : a = b
    · rw [if_pos h]
      obtain ⟨p, h1, h2⟩ := stripCommon_spec as bs
      exact ⟨a :: p, by rw [List.cons_append, ← h1], by rw [List.cons_append, h, ← h2]⟩
    · rw [if_neg h]
      exact ⟨[], by simp⟩

theorem joinSlashL_cons_head (x : Char) (c2 : List Char) (rest : List (List Char)) :
    (joinSlashL ((x :: c2) :: rest)).head? = some x := by
  cases rest <;> rfl

theorem joinSlashL_cons_ne_nil (c : List Char) (rest : List (List Char)) (hc : c ≠ []) :
    joinSlashL (c :: rest) ≠ [] := by
  rcases c with _ | ⟨x, c2⟩
  · exact absurd rfl hc
  · cases rest <;> simp [joinSlashL]

theorem printC_ne_nil (ρ : Bool) (cs : List (List Char)) (h : ∀ c ∈ cs, compOK c) :
    printC ρ cs ≠ [] := by
  unfold printC
  cases ρ
  · rw [if_neg (by simp)]
    rcases cs with _ | ⟨c, rest⟩
    · simp
    · rw [if_neg (by simp)]
      exact joinSlashL_cons_ne_nil c rest (h c (List.mem_cons_self c rest)).1
  · simp

theorem isRootedC_printC (ρ : Bool) (cs : List (List Char)) (h : ∀ c ∈ cs, compOK c) :
    isRootedC (printC ρ cs) = ρ := by
  unfold printC isRootedC
  cases ρ
  · rw [if_neg (by simp)]
    rcases cs with _ | ⟨c, rest⟩
    · simp
    · rw [if_neg (by simp)]
      rcases hc : c with _ | ⟨x, c2⟩
      · exact absurd hc (h c (List.mem_cons_self c rest)).1
      · rw [joinSlashL_cons_head]
        have hx : x ≠ '/' := by
          intro hx
          exact (h c (List.mem_cons_self c rest)).2.2 (by rw [hc, hx]; exact List.mem_cons_self _ _)
        simp [hx]
  · simp

theorem filter_splitSlashC_printC_rooted (cs : List (List Char))
    (h : ∀ c ∈ cs, compOK c) :
    (splitSlashC (printC true cs)).filter (fun c => !c.isEmpty) = cs := by
  unfold printC
  rw [if_pos rfl]
  rcases cs with _ | ⟨c, rest⟩
  · rfl
  · rw [splitSlashC_cons_slash]
    rw [splitSlashC_joinSlashL (c :: rest) (fun x hx => (h x hx).2.2) (by simp)]
    rw [List.filter_cons, List.filter_eq_self.mpr (fun a ha => by
      simp [List.isEmpty_iff]
      exact (h a ha).1)]
    simp

theorem filter_splitSlashC_printC_relative (cs : List (List Char))
    (h : ∀ c ∈ cs, compOK c) (hne : cs ≠ []) :
    (splitSlashC (printC false cs)).filter (fun c => !c.isEmpty) = cs := by
  unfold printC
  rw [if_neg (by simp), if_neg hne]
  rw [splitSlashC_joinSlashL cs (fun x hx => (h x hx).2.2) hne]
  exact List.filter_eq_self.mpr (fun a ha => by
    simp [List.isEmpty_iff]
    exact (h a ha).1)

theorem printC_eq_dot (ρ : Bool) (cs : List (List Char)) (h : ∀ c ∈ cs, compOK c)
    (he : printC ρ cs = ['.']) : ρ = false ∧ cs = [] := by
  unfold printC at he
  cases ρ
  · rw [if_neg (by simp)] at he
    rcases cs with _ | ⟨c, rest⟩
    · exact ⟨rfl, rfl⟩
    · rw [if_neg (by simp)] at he
      exfalso
      rcases hc : c with _ | ⟨x, c2⟩
      · exact (h c (List.mem_cons_self c rest)).1 hc
      · subst hc
        cases rest with
        | nil =>
          exact (h _ (List.mem_cons_self _ _)).2.1 he
        | cons r rs =>
          rw [joinSlashL] at he
          simp at he
  · simp at he

theorem head?_append_ne_nil (b x : List Char) (hb : b ≠ []) :
    (b ++ x).head? = b.head? := by
  rcases b with _ | ⟨c, b2⟩
  · exact absurd rfl hb
  · rfl

theorem cleanForm_of_cleanC (p : List Char) :
    (∀ c ∈ cleanCore (isRootedC p) (splitSlashC p), compOK c) ∧
      ddOnlyLeading (cleanCore (isRootedC p) (splitSlashC p)) ∧
      (isRootedC p = true → dd ∉ cleanCore (isRootedC p) (splitSlashC p)) :=
  cleanCore_cleanForm (isRootedC p) (splitSlashC p) (splitSlashC_slash_free p)

/-- Re-cleaning the printed form of a clean component list is the
    identity. -/
theorem cleanCore_splitSlashC_printC (ρ : Bool) (cs : List (List Char))
    (hcomp : ∀ c ∈ cs, compOK c) (hlead : ddOnlyLeading cs)
    (hdd : ρ = true → dd ∉ cs) :
    cleanCore ρ (splitSlashC (printC ρ cs)) = cs := by
  have hfold : List.foldl (cleanStep ρ) [] cs = cs.reverse := by
    have := foldl_cleanStep_cleanForm ρ cs [] hcomp hlead hdd
    simpa using this
  unfold printC
  cases ρ
  · rw [if_neg (by simp)]
    rcases cs with _ | ⟨c, rest⟩
    · rfl
    · rw [if_neg (by simp)]
      rw [splitSlashC_joinSlashL (c :: rest) (fun x hx => (hcomp x hx).2.2) (by simp)]
      unfold cleanCore
      rw [hfold, List.reverse_reverse]
  · rw [if_pos rfl]
    rcases cs with _ | ⟨c, rest⟩
    · rfl
    · rw [splitSlashC_cons_slash]
      rw [splitSlashC_joinSlashL (c :: rest) (fun x hx => (hcomp x hx).2.2) (by simp)]
      unfold cleanCore
      rw [List.foldl_cons]
      show (List.foldl (cleanStep true) [] (c :: rest)).reverse = c :: rest
      rw [hfold, List.reverse_reverse]

/-- `Clean` is idempotent. -/
theorem cleanC_idem (p : List Char) : cleanC (cleanC p) = cleanC p := by
  obtain ⟨hcomp, hlead, hdd⟩ := cleanForm_of_cleanC p
  show printC (isRootedC (cleanC p)) (cleanCore (isRootedC (cleanC p)) (splitSlashC (cleanC p)))
    = cleanC p
  have hr : isRootedC (cleanC p) = isRootedC p :=
    isRootedC_printC (isRootedC p) (cleanCore (isRootedC p) (splitSlashC p)) hcomp
  rw [hr]
  rw [show splitSlashC (cleanC p)
      = splitSlashC (printC (isRootedC p) (cleanCore (isRootedC p) (splitSlashC p))) from rfl]
  rw [cleanCore_splitSlashC_printC (isRootedC p) _ hcomp hlead hdd]
  rfl

/-- The base component list computed by `relC` is the clean component list
    of the base path. -/
theorem relC_comps_base (b : List Char) :
    (splitSlashC (if cleanC b = ['.'] then [] else cleanC b)).filter (fun c => !c.isEmpty)
      = cleanCore (isRootedC b) (splitSlashC b) := by
  obtain ⟨hcomp, -, -⟩ := cleanForm_of_cleanC b
  by_cases hd : cleanC b = ['.']
  · rw [if_pos hd]
    obtain ⟨-, hnil⟩ := printC_eq_dot (isRootedC b) _ hcomp hd
    rw [hnil]
    rfl
  · rw [if_neg hd]
    show (splitSlashC (printC (isRootedC b) (cleanCore (isRootedC b) (splitSlashC b)))).filter
        (fun c => !c.isEmpty) = cleanCore (isRootedC b) (splitSlashC b)
    rcases Bool.eq_false_or_eq_true (isRootedC b) with hρ | hρ
    · rw [hρ] at hcomp ⊢
      exact filter_splitSlashC_printC_rooted _ hcomp
    · have hne : cleanCore (isRootedC b) (splitSlashC b) ≠ [] := by
        intro h0
        apply hd
        show printC (isRootedC b) (cleanCore (isRootedC b) (splitSlashC b)) = ['.']
        rw [h0, hρ]
        rfl
      rw [hρ] at hne hcomp ⊢
      exact filter_splitSlashC_printC_relative _ hcomp hne

/-- Rootedness of the base as `relC` computes it. -/
theorem isRootedC_relC_base (b : List Char) :
    isRootedC (if cleanC b = ['.'] then [] else cleanC b) = isRootedC b := by
  obtain ⟨hcomp, -, -⟩ := cleanForm_of_cleanC b
  by_cases hd : cleanC b = ['.']
  · rw [if_pos hd]
    obtain ⟨hρ, -⟩ := printC_eq_dot (isRootedC b) _ hcomp hd
    rw [hρ]
    rfl
  · rw [if_neg hd]
    exact isRootedC_printC (isRootedC b) _ hcomp

/-- Rootedness is preserved by `Clean`. -/
theorem isRootedC_cleanC (p : List Char) : isRootedC (cleanC p) = isRootedC p := by
  obtain ⟨hcomp, -, -⟩ := cleanForm_of_cleanC p
  exact isRootedC_printC (isRootedC p) _ hcomp

/-- The central computation of the round-trip: starting from the clean base
    components, the `..` climb removes the base remainder and the target
    remainder descends to the clean target components. -/
theorem foldl_relComps (ρ : Bool) (bc tc bs ts : List (List Char))
    (hbcomp : ∀ c ∈ bc, compOK c) (hblead : ddOnlyLeading bc)
    (htcomp : ∀ c ∈ tc, compOK c) (htlead : ddOnlyLeading tc)
    (htdd : ρ = true → dd ∉ tc)
    (hstrip : stripCommon bc tc = (bs, ts)) (hhead : bs.head? ≠ some dd) :
    List.foldl (cleanStep ρ) bc.reverse (List.replicate bs.length dd ++ ts) = tc.reverse := by
  obtain ⟨p, hp1, hp2⟩ := stripCommon_spec bc tc
  rw [hstrip] at hp1 hp2
  simp only at hp1 hp2
  have hbs_dd : dd ∉ bs :=
    ddOnlyLeading_not_mem bs (ddOnlyLeading_suffix p bs (hp1 ▸ hblead)) hhead
  rw [List.foldl_append]
  have hlen : bs.length = bs.reverse.length := by simp
  have hpops : List.foldl (cleanStep ρ) bc.reverse (List.replicate bs.length dd) = p.reverse := by
    rw [hp1, List.reverse_append, hlen]
    exact foldl_cleanStep_pops ρ bs.reverse p.reverse (fun z hz => by
      have hz2 := List.mem_reverse.mp hz
      have hc := hbcomp z (hp1 ▸ List.mem_append_right p hz2)
      exact ⟨hc.1, hc.2.1, fun hzd => hbs_dd (hzd ▸ hz2)⟩)
  rw [hpops]
  have := foldl_cleanStep_cleanForm ρ ts p (hp2 ▸ htcomp) (hp2 ▸ htlead)
    (fun hr => hp2 ▸ htdd hr)
  rw [this, ← hp2]

theorem foldl_eq_cleanCore_reverse (ρ : Bool) (cs : List (List Char)) :
    List.foldl (cleanStep ρ) [] cs = (cleanCore ρ cs).reverse := by
  unfold cleanCore
  rw [List.reverse_reverse]

theorem stripCommon_nil_left (l : List (List Char)) : stripCommon [] l = ([], l) := by
  cases l <;> rfl

/-- `Join` of two non-empty paths, written through the stack fold. -/
theorem joinC_clean_append (b x : List Char) (hb : b ≠ []) (hx : x ≠ []) :
    joinC b x = printC (isRootedC b)
      ((List.foldl (cleanStep (isRootedC b))
        ((cleanCore (isRootedC b) (splitSlashC b)).reverse) (splitSlashC x)).reverse) := by
  unfold joinC
  rw [if_neg hb, if_neg hx]
  show printC (isRootedC (b ++ '/' :: x))
      (cleanCore (isRootedC (b ++ '/' :: x)) (splitSlashC (b ++ '/' :: x))) = _
  have hr : isRootedC (b ++ '/' :: x) = isRootedC b := by
    unfold isRootedC
    rw [head?_append_ne_nil b ('/' :: x) hb]
  rw [hr, splitSlashC_append]
  unfold cleanCore
  rw [List.foldl_append, foldl_eq_cleanCore_reverse, List.reverse_reverse]

/-- The target component list computed by `relC` when the cleaned target is
    not `.`. -/
theorem relC_comps_targ (t : List Char) (hdot : cleanC t ≠ ['.']) :
    (splitSlashC (cleanC t)).filter (fun c => !c.isEmpty)
      = cleanCore (isRootedC t) (splitSlashC t) := by
  obtain ⟨hcomp, -, -⟩ := cleanForm_of_cleanC t
  show (splitSlashC (printC (isRootedC t) (cleanCore (isRootedC t) (splitSlashC t)))).filter
      (fun c => !c.isEmpty) = cleanCore (isRootedC t) (splitSlashC t)
  rcases Bool.eq_false_or_eq_true (isRootedC t) with hρ | hρ
  · rw [hρ] at hcomp ⊢
    exact filter_splitSlashC_printC_rooted _ hcomp
  · have hne : cleanCore (isRootedC t) (splitSlashC t) ≠ [] := by
      intro h0
      apply hdot
      show printC (isRootedC t) (cleanCore (isRootedC t) (splitSlashC t)) = ['.']
      rw [h0, hρ]
      rfl
    rw [hρ] at hne hcomp ⊢
    exact filter_splitSlashC_printC_relative _ hcomp hne

/-- The `filepath.Rel` / `filepath.Join` round-trip: when `Rel base targ`
    succeeds, joining its result back onto the base yields the cleaned
    target. -/
theorem relC_joinC (b t r : List Char) (h : relC b t = some r) :
    joinC b r = cleanC t := by
  unfold relC at h
  by_cases heq : cleanC t = cleanC b
  · rw [if_pos heq] at h
    injection h with h
    subst h
    rw [heq]
    by_cases hb : b = []
    · subst hb; rfl
    · rw [joinC_clean_append b ['.'] hb (by simp)]
      rw [show splitSlashC ['.'] = [['.']] from rfl]
      rw [List.foldl_cons, List.foldl_nil]
      rw [show cleanStep (isRootedC b) (cleanCore (isRootedC b) (splitSlashC b)).reverse ['.']
          = (cleanCore (isRootedC b) (splitSlashC b)).reverse from by
        unfold cleanStep; rw [if_pos (Or.inr rfl)]]
      rw [List.reverse_reverse]
      rfl
  · rw [if_neg heq] at h
    by_cases hrr : isRootedC (if cleanC b = ['.'] then [] else cleanC b) ≠ isRootedC (cleanC t)
    · rw [if_pos hrr] at h
      cases h
    · rw [if_neg hrr] at h
      push_neg at hrr
      rw [isRootedC_relC_base, isRootedC_cleanC] at hrr
      obtain ⟨hbcomp, hblead, hbdd⟩ := cleanForm_of_cleanC b
      obtain ⟨htcomp, htlead, htdd⟩ := cleanForm_of_cleanC t
      rw [relC_comps_base b] at h
      by_cases hdot : cleanC t = ['.']
      · -- the target cleans to `.`; its component scan yields the single
        -- component `.` (the `Rel` target is not converted like the base)
        obtain ⟨hρt, htnil⟩ := printC_eq_dot (isRootedC t) _ htcomp hdot
        rw [hdot] at h
        rw [show (splitSlashC ['.']).filter (fun c => !c.isEmpty) = [['.']] from rfl] at h
        rcases hstrip : stripCommon (cleanCore (isRootedC b) (splitSlashC b)) [['.']]
          with ⟨bs, ts⟩
        simp only [] at h
        rw [hstrip] at h
        obtain ⟨p, hp1, hp2⟩ := stripCommon_spec
          (cleanCore (isRootedC b) (splitSlashC b)) [['.']]
        rw [hstrip] at hp1 hp2
        simp only at hp1 hp2
        have hpnil : p = [] := by
          rcases p with _ | ⟨q, qs⟩
          · rfl
          · exfalso
            have hq : q = ['.'] := by
              have := hp2
              rw [List.cons_append] at this
              exact (List.cons.inj this.symm).1
            apply (hbcomp ['.'] ?_).2.1 rfl
            rw [hp1, hq]
            exact List.mem_append_left _ (List.mem_cons_self _ _)
        subst hpnil
        rw [List.nil_append] at hp1 hp2
        by_cases hhead : bs.head? = some dd
        · rw [if_pos hhead] at h
          cases h
        · rw [if_neg hhead] at h
          injection h with h
          subst h
          have hbsdd : dd ∉ bs := ddOnlyLeading_not_mem bs (hp1 ▸ hblead) hhead
          rw [hdot]
          by_cases hb : b = []
          · subst hb
            have hbc : cleanCore (isRootedC ([] : List Char)) (splitSlashC []) = [] := rfl
            rw [hbc] at hp1
            rw [← hp1, ← hp2]
            rfl
          · have hts : ts = [['.']] := hp2.symm
            have hrcons : ∃ c rest, List.replicate bs.length dd ++ ts = c :: rest ∧ c ≠ [] := by
              rcases hn : bs.length with _ | n
              · exact ⟨['.'], [], by rw [hts]; rfl, by simp⟩
              · exact ⟨dd, List.replicate n dd ++ ts, by rw [List.replicate_succ]; rfl,
                  by simp [dd]⟩
            obtain ⟨c, rest, hrc, hcne⟩ := hrcons
            have hrne : joinSlashL (List.replicate bs.length dd ++ ts) ≠ [] := by
              rw [hrc]
              exact joinSlashL_cons_ne_nil c rest hcne
            rw [joinC_clean_append b _ hb hrne]
            rw [splitSlashC_joinSlashL (List.replicate bs.length dd ++ ts) (fun x hx => by
                rcases List.mem_append.mp hx with hx | hx
                · rw [List.eq_of_mem_replicate hx]; simp [dd]
                · rw [hts] at hx
                  rcases List.mem_singleton.mp hx with rfl
                  simp) (by rw [hrc]; simp)]
            rw [List.foldl_append]
            have hpops : List.foldl (cleanStep (isRootedC b))
                (cleanCore (isRootedC b) (splitSlashC b)).reverse
                (List.replicate bs.length dd) = [] := by
              rw [hp1]
              have hpp := foldl_cleanStep_pops (isRootedC b) bs.reverse [] (fun z hz => by
                have hz2 := List.mem_reverse.mp hz
                have hc := hbcomp z (hp1.symm ▸ hz2)
                exact ⟨hc.1, hc.2.1, fun hzd => hbsdd (hzd ▸ hz2)⟩)
              simpa using hpp
            rw [hpops]
            rw [hts]
            rw [show List.foldl (cleanStep (isRootedC b)) [] [['.']] = [] from by
              rw [List.foldl_cons, List.foldl_nil]
              unfold cleanStep
              rw [if_pos (Or.inr rfl)]]
            rw [hrr, hρt]
            rfl
      · -- the target does not clean to `.`
        rw [relC_comps_targ t hdot] at h
        rcases hstrip : stripCommon (cleanCore (isRootedC b) (splitSlashC b))
          (cleanCore (isRootedC t) (splitSlashC t)) with ⟨bs, ts⟩
        simp only [] at h
        rw [hstrip] at h
        obtain ⟨p, hp1, hp2⟩ := stripCommon_spec
          (cleanCore (isRootedC b) (splitSlashC b)) (cleanCore (isRootedC t) (splitSlashC t))
        rw [hstrip] at hp1 hp2
        simp only at hp1 hp2
        by_cases hhead : bs.head? = some dd
        · rw [if_pos hhead] at h
          cases h
        · rw [if_neg hhead] at h
          injection h with h
          subst h
          by_cases hb : b = []
          · have hbc : cleanCore (isRootedC b) (splitSlashC b) = [] := by
              subst hb; rfl
            have hrb : isRootedC b = false := by subst hb; rfl
            rw [hbc, stripCommon_nil_left] at hstrip
            have hbs : bs = [] := (Prod.mk.inj hstrip.symm).1
            have hts : ts = cleanCore (isRootedC t) (splitSlashC t) :=
              (Prod.mk.inj hstrip.symm).2
            have htne : cleanCore (isRootedC t) (splitSlashC t) ≠ [] := by
              intro h0
              apply hdot
              show printC (isRootedC t) (cleanCore (isRootedC t) (splitSlashC t)) = ['.']
              rw [h0, ← hrr, hrb]
              rfl
            rcases htc : cleanCore (isRootedC t) (splitSlashC t) with _ | ⟨c, rest⟩
            · exact absurd htc htne
            · have hcc : compOK c := htcomp c (htc ▸ List.mem_cons_self c rest)
              have hrne : joinSlashL (List.replicate bs.length dd ++ ts) ≠ [] := by
                rw [hbs, hts, htc]
                exact joinSlashL_cons_ne_nil c rest hcc.1
              subst hb
              show joinC [] _ = cleanC t
              rw [show joinC [] (joinSlashL (List.replicate bs.length dd ++ ts))
                  = cleanC (joinSlashL (List.replicate bs.length dd ++ ts)) from by
                unfold joinC
                rw [if_pos rfl, if_neg hrne]]
              rw [hbs, hts, htc]
              show printC (isRootedC (joinSlashL (c :: rest)))
                  (cleanCore (isRootedC (joinSlashL (c :: rest)))
                    (splitSlashC (joinSlashL (c :: rest)))) = cleanC t
              have hsf : ∀ x ∈ c :: rest, '/' ∉ x := fun x hx =>
                (htcomp x (htc ▸ hx)).2.2
              have hroot : isRootedC (joinSlashL (c :: rest)) = false := by
                rcases hcx : c with _ | ⟨x, c2⟩
                · exact absurd hcx hcc.1
                · subst hcx
                  unfold isRootedC
                  rw [joinSlashL_cons_head x c2 rest]
                  have hx : x ≠ '/' := by
                    intro hx0
                    subst hx0
                    exact hcc.2.2 (List.mem_cons_self _ _)
                  simp [hx]
              rw [hroot]
              rw [splitSlashC_joinSlashL (c :: rest) hsf (by simp)]
              have hid : cleanCore false (c :: rest) = c :: rest := by
                have h0 := foldl_cleanStep_cleanForm false (c :: rest) []
                  (by
                    intro x hx
                    rw [List.nil_append] at hx
                    exact htcomp x (by rw [htc]; exact hx))
                  (by rw [List.nil_append, ← htc]; exact htlead)
                  (by simp)
                simp only [List.reverse_nil, List.nil_append] at h0
                unfold cleanCore
                rw [h0, List.reverse_reverse]
              rw [hid]
              show printC false (c :: rest) = cleanC t
              have : cleanC t = printC (isRootedC t) (cleanCore (isRootedC t) (splitSlashC t)) :=
                rfl
              rw [this, htc, ← hrb, hrr]
          · -- b ≠ [] : the general case, via `foldl_relComps`
            have hrcne : List.replicate bs.length dd ++ ts ≠ [] := by
              intro h0
              rcases List.append_eq_nil.mp h0 with ⟨h1, h2⟩
              have hbs : bs = [] := by
                rcases bs with _ | ⟨z, zs⟩
                · rfl
                · simp [List.replicate_succ] at h1
              subst hbs
              subst h2
              rw [List.append_nil] at hp1 hp2
              apply heq
              show printC (isRootedC t) (cleanCore (isRootedC t) (splitSlashC t))
                = printC (isRootedC b) (cleanCore (isRootedC b) (splitSlashC b))
              rw [hp1, hp2, hrr]
            have hfirst : ∃ c rest, List.replicate bs.length dd ++ ts = c :: rest ∧ c ≠ [] := by
              rcases hn : bs.length with _ | n
              · rcases hts0 : ts with _ | ⟨c, rest⟩
                · exfalso
                  apply hrcne
                  rw [hn, hts0]
                  rfl
                · refine ⟨c, rest, by simp [hn, hts0], ?_⟩
                  have : c ∈ cleanCore (isRootedC t) (splitSlashC t) := by
                    rw [hp2, hts0]
                    exact List.mem_append_right p (List.mem_cons_self c rest)
                  exact (htcomp c this).1
              · exact ⟨dd, List.replicate n dd ++ ts, by rw [List.replicate_succ]; rfl,
                  by simp [dd]⟩
            obtain ⟨c, rest, hrc, hcne⟩ := hfirst
            have hrne : joinSlashL (List.replicate bs.length dd ++ ts) ≠ [] := by
              rw [hrc]
              exact joinSlashL_cons_ne_nil c rest hcne
            rw [joinC_clean_append b _ hb hrne]
            rw [splitSlashC_joinSlashL (List.replicate bs.length dd ++ ts) (fun x hx => by
                rcases List.mem_append.mp hx with hx | hx
                · rw [List.eq_of_mem_replicate hx]; simp [dd]
                · have : x ∈ cleanCore (isRootedC t) (splitSlashC t) := by
                    rw [hp2]
                    exact List.mem_append_right p hx
                  exact (htcomp x this).2.2) (by rw [hrc]; simp)]
            rw [foldl_relComps (isRootedC b) _ _ bs ts hbcomp hblead htcomp htlead
              (fun hr0 => htdd (by rw [← hrr]; exact hr0)) hstrip hhead]
            rw [List.reverse_reverse]
            show printC (isRootedC b) (cleanCore (isRootedC t) (splitSlashC t)) = cleanC t
            rw [hrr]
            rfl

theorem cleanC_ne_nil (p : List Char) : cleanC p ≠ [] :=
  printC_ne_nil (isRootedC p) _ (cleanForm_of_cleanC p).1

theorem dirC_ne_nil (p : List Char) : dirC p ≠ [] := by
  unfold dirC
  rcases hm : (splitSlashC p).dropLast with _ | ⟨c, cs⟩
  · simp
  · exact cleanC_ne_nil _

/-- `Join` output is already clean when the first element is non-empty. -/
theorem cleanC_joinC (a b : List Char) (ha : a ≠ []) :
    cleanC (joinC a b) = joinC a b := by
  unfold joinC
  rw [if_neg ha]
  by_cases hb : b = []
  · rw [if_pos hb]
    exact cleanC_idem a
  · rw [if_neg hb]
    exact cleanC_idem (a ++ '/' :: b)

/-- C5: the Rewriter's self-reference rewrite preserves the resolved target.
    For every local-path link `u` of the moved file for which the rewrite
    succeeds (`updateRenamedFile`, lines 128–140 of `mdrename/main.go`), the
    rewritten destination, resolved against the new containing directory
    `Dir dst`, equals the original destination resolved against the old
    containing directory `Dir src`, and the fragment is preserved
    unchanged. -/
theorem updateLink_roundtrip (src dst : String) (u u2 : GoURL)
    (h : updateLink src dst u = some u2) :
    join (dir dst) (fromSlash u2.path) = join (dir src) (fromSlash u.path) ∧
    u2.fragment = u.fragment := by
  unfold updateLink at h
  by_cases hskip : u.scheme ≠ "" ∨ u.host ≠ "" ∨ u.path = ""
  · rw [if_pos hskip] at h
    cases h
  · rw [if_neg hskip] at h
    simp only [] at h
    rcases hrel : rel (dir dst) (join (dir src) (fromSlash u.path)) with _ | rp
    · rw [hrel] at h
      cases h
    · rw [hrel] at h
      injection h with h
      subst h
      refine ⟨?_, rfl⟩
      obtain ⟨rc, hrc, hmk⟩ := Option.map_eq_some'.mp hrel
      subst hmk
      show String.mk (joinC (dirC dst.data) rc) = String.mk (joinC (dirC src.data) u.path.data)
      have h1 := relC_joinC (dirC dst.data) (joinC (dirC src.data) u.path.data) rc hrc
      have h2 := cleanC_joinC (dirC src.data) u.path.data (dirC_ne_nil src.data)
      exact congrArg String.mk (h1.trans h2)

/-- Witness for `updateLink_roundtrip`: moving `a.md` to `sub/a.md` rewrites
    its link `b.md#sec` to `../b.md#sec`, which still resolves to `b.md`. -/
theorem updateLink_roundtrip_witness :
    join (dir "sub/a.md") (fromSlash "../b.md") = join (dir "a.md") (fromSlash "b.md") ∧
    "sec" = "sec" :=
  updateLink_roundtrip "a.md" "sub/a.md" ⟨"", "", "b.md", "sec"⟩ ⟨"", "", "../b.md", "sec"⟩
    (by decide)
